import Mathlib

/-!
# Job distribution and status aggregation (`concurrency/main.go`)

A shallow embedding of the Go program: `Job.Execute`, the per-signal update of
`Monitor.receive`, `Monitor.report`, `Monitor.batchProcess`, the segmentation loop of
`Monitor.Distribute`, and a step machine for the goroutines and the two channels.

Go `int` values are modelled as `Int`; the only arithmetic that can leave the 64-bit
range is the unary minus, which is modelled by `neg64` (two's complement wrap-around).
-/

namespace GoDemo

/-! ## Machine integers -/

/-- Wrap an integer into the signed 64-bit range. -/
def wrap64 (x : Int) : Int := (x + 2 ^ 63) % 2 ^ 64 - 2 ^ 63

/-- Go's unary minus on `int`. -/
def neg64 (x : Int) : Int := wrap64 (-x)

/-! ## Job -/

/-- The struct `Job`. -/
structure Job where
  JobID : Int
  SleepTime : Int
  Done : Bool
  deriving DecidableEq, Repr

/-- The method `(j *Job) Execute() bool`: the job after the call and the returned value.
The call to `time.Sleep` only delays the caller and is not part of the state. -/
def Execute (j : Job) : Job × Bool :=
  if j.Done then
    (j, false)
  else
    let j1 := { j with Done := true }
    (j1, j1.Done)

/-! ## Signals and the Log -/

/-- A value travelling on one of the two channels of the `Monitor`. -/
inductive Signal where
  | status (v : Int)
  | err (v : Int)
  deriving DecidableEq, Repr

/-- The map `Monitor.Log`, as the list of its entries in some iteration order. -/
abbrev Log := List (Int × Int)

/-- The state written for a start signal. -/
def running : Int := 0
/-- The state written for a completion signal. -/
def complete : Int := 1
/-- The state written for an error signal. -/
def failed : Int := -1

/-- Map read `m[k]`, with presence. -/
def Log.get? (m : Log) (k : Int) : Option Int :=
  match m with
  | [] => none
  | (k1, v1) :: rest => if k1 = k then some v1 else Log.get? rest k

/-- Map assignment `m[k] = v`: overwrite in place, or add a new entry. -/
def Log.set (m : Log) (k v : Int) : Log :=
  match m with
  | [] => [(k, v)]
  | (k1, v1) :: rest => if k1 = k then (k, v) :: rest else (k1, v1) :: Log.set rest k v

/-- The keys of the map. -/
def Log.keys (m : Log) : List Int := m.map Prod.fst

/-- One iteration of the loop of `Monitor.receive` in which a value was received
(`ok` is true): the update of the Log. -/
def receiveStep (m : Log) (s : Signal) : Log :=
  match s with
  | .status signal =>
      if signal > 0 then
        m.set signal 0
      else
        m.set (neg64 signal) 1
  | .err signal => m.set signal (-1)

/-- The Log after the receive loop has consumed the signals `t`, in order. -/
def receiveAll (m : Log) (t : List Signal) : Log := t.foldl receiveStep m

/-! ## Report -/

/-- The three slices built by `Monitor.report`. -/
structure Report where
  running : List Int
  complete : List Int
  failed : List Int
  deriving DecidableEq, Repr

/-- The body of the `range` loop of `Monitor.report` for one entry. -/
def reportEntry (acc : Report) (e : Int × Int) : Report :=
  if e.2 = -1 then { acc with failed := acc.failed ++ [e.1] }
  else if e.2 = 0 then { acc with running := acc.running ++ [e.1] }
  else if e.2 = 1 then { acc with complete := acc.complete ++ [e.1] }
  else acc

/-- The library function `sort.Ints`: sorts in increasing order. -/
def sortInts (l : List Int) : List Int := l.insertionSort (fun a b => a ≤ b)

/-- The lists printed by `Monitor.report`; the entries are visited in the order of the list. -/
def report (m : Log) : Report :=
  let r := m.foldl reportEntry { running := [], complete := [], failed := [] }
  { running := sortInts r.running, complete := sortInts r.complete, failed := sortInts r.failed }

/-! ## Workers -/

/-- The method `batchProcess`: the contents of `data` after the loop and the signals sent,
in the order of sending. The loop variable `j` is a copy of the element, and `Execute`
is called on that copy. -/
def batchProcess (data : List Job) : List Job × List Signal :=
  match data with
  | [] => ([], [])
  | elem :: rest =>
      let j := elem
      let start := Signal.status j.JobID
      let r := Execute j
      let j := r.1
      let success := r.2
      let terminal := if success then Signal.status (neg64 j.JobID) else Signal.err j.JobID
      let after := batchProcess rest
      (elem :: after.1, start :: terminal :: after.2)

/-- The signals one worker sends for its segment. -/
def workerSignals (data : List Job) : List Signal := (batchProcess data).2

/-! ## Distribute -/

/-- The slice expression `q[first:last]`; `none` is the run-time panic. The check is made
against `len(q)`, which is at most `cap(q)`. -/
def sliceJobs (q : List Job) (first last : Int) : Option (List Job) :=
  if 0 ≤ first ∧ first ≤ last ∧ last ≤ (q.length : Int) then
    some ((q.drop first.toNat).take (last.toNat - first.toNat))
  else
    none

/-- The loop `for i := 0; i < threads; i++` of `Distribute` with `n` iterations left,
collecting the segment of each iteration. -/
def segmentsLoop (q : List Job) (seg : Int) : Nat → Int → Option (List (List Job))
  | 0, _ => some []
  | n + 1, i =>
      let first := i * seg
      let last := (i + 1) * seg
      match sliceJobs q first last with
      | none => none
      | some segment =>
          match segmentsLoop q seg n (i + 1) with
          | none => none
          | some rest => some (segment :: rest)

/-- The segments `Distribute` hands to its workers; `none` is a run-time panic
(integer division by zero, or a slice out of range). -/
def segments (q : List Job) (threads : Int) : Option (List (List Job)) :=
  if threads = 0 then none
  else
    let seg := Int.tdiv (q.length : Int) threads
    segmentsLoop q seg threads.toNat 0

/-- The orders in which the single receiver can get the signals of the workers: each
step takes the next signal of one worker. -/
inductive Interleaving : List (List Signal) → List Signal → Prop where
  | done (ws : List (List Signal)) : (∀ w ∈ ws, w = []) → Interleaving ws []
  | step (ws pre post : List (List Signal)) (s : Signal) (rest t : List Signal) :
      ws = pre ++ (s :: rest) :: post →
      Interleaving (pre ++ rest :: post) t → Interleaving ws (s :: t)

/-- The caller's queue after `Distribute`: every segment is a view of the queue, so the
queue holds what the workers left in their segments, followed by the part no worker got. -/
def queueAfter (q : List Job) (threads : Int) : Option (List Job) :=
  match segments q threads with
  | none => none
  | some segs =>
      some ((segs.map (fun s => (batchProcess s).1)).flatten ++
        q.drop (segs.map List.length).sum)

/-- A queue of `n` fresh jobs with ids `1..n` and no workload. -/
def freshQueue (n : Nat) : List Job :=
  (List.range n).map (fun i : Nat => { JobID := (i : Int) + 1, SleepTime := 0, Done := false })

/-! ## The goroutines and the channels -/

/-- Where the goroutine that runs `Distribute` stands once the workers are launched. -/
inductive MainPc where
  /-- In `wg.Wait()`. -/
  | waiting
  /-- In the call `m.receive()` that is the first statement of `close`. -/
  | draining
  /-- Before `close(m.status)`. -/
  | closingStatus
  /-- Before `close(m.err)`. -/
  | closingErr
  /-- After `close` and `Distribute` have returned. -/
  | returned
  deriving DecidableEq, Repr

/-- The state of a run of `Distribute` after `listen` and the launch of the workers:
what each worker still has to send, the Log, whether each channel is open, whether the
goroutine started by `go m.receive()` is still in its loop, and where the main goroutine
stands. The reporting goroutine only reads the Log and sleeps, and is left out. -/
structure Sys where
  workers : List (List Signal)
  log : Log
  statusOpen : Bool
  errOpen : Bool
  listening : Bool
  main : MainPc
  deriving DecidableEq, Repr

/-- What can happen next in a run. -/
inductive Event where
  /-- The pending send of worker `i` meets a receive of `select`: the one of the goroutine
  started by `listen`, or (`toMain`) the one of the main goroutine inside `close`. -/
  | send (i : Nat) (toMain : Bool)
  /-- A `select` of a receive loop gets `ok == false` from a closed channel and the loop
  ends: the loop of the goroutine started by `listen`, or (`byMain`) the one in `close`. -/
  | closed (byMain : Bool)
  /-- The main goroutine goes on to its next statement. -/
  | advance
  deriving DecidableEq, Repr

/-- Whether the channel a signal travels on is open. -/
def chanOpen (s : Sys) (sig : Signal) : Bool :=
  match sig with
  | .status _ => s.statusOpen
  | .err _ => s.errOpen

/-- One step of the run; `none` when the event cannot happen in this state. The channels
are unbuffered, so a send happens only together with a receive of a running receive
loop (and only on an open channel: a send on a closed channel panics); `wg.Wait()`
returns when every worker has sent everything and returned; a receive loop ends only
when a receive reports a closed channel. -/
def step (s : Sys) (e : Event) : Option Sys :=
  match e with
  | .send i toMain =>
      match s.workers[i]? with
      | some (sig :: rest) =>
          if chanOpen s sig && (if toMain then decide (s.main = MainPc.draining) else s.listening)
          then some { s with workers := s.workers.set i rest, log := receiveStep s.log sig }
          else none
      | _ => none
  | .closed byMain =>
      if !s.statusOpen || !s.errOpen then
        if byMain then
          if s.main = MainPc.draining then some { s with main := MainPc.closingStatus } else none
        else
          if s.listening then some { s with listening := false } else none
      else none
  | .advance =>
      match s.main with
      | .waiting =>
          if s.workers.all List.isEmpty then some { s with main := MainPc.draining } else none
      | .draining => none
      | .closingStatus =>
          if s.statusOpen then some { s with statusOpen := false, main := MainPc.closingErr }
          else none
      | .closingErr =>
          if s.errOpen then some { s with errOpen := false, main := MainPc.returned } else none
      | .returned => none

/-- A run: the events happen one after the other. -/
def run (s : Sys) (es : List Event) : Option Sys :=
  match es with
  | [] => some s
  | e :: rest =>
      match step s e with
      | none => none
      | some s1 => run s1 rest

/-- The state in which `Distribute` has launched one worker per segment. -/
def initSys (segs : List (List Job)) : Sys :=
  { workers := segs.map workerSignals, log := [], statusOpen := true, errOpen := true,
    listening := true, main := MainPc.waiting }

/-- The method `Distribute` up to `wg.Wait()`: the segment size is computed, `listen`
makes the channels and the Log and starts the receive loop, and one worker is launched
per segment; `none` when the segmentation panics. -/
def Distribute (q : List Job) (threads : Int) : Option Sys :=
  match segments q threads with
  | none => none
  | some segs => some (initSys segs)

/-- The state after two fresh jobs have run on one worker and `wg.Wait()` has returned. -/
def drainedTwo : Sys :=
  { workers := [[]], log := [(1, 1), (2, 1)], statusOpen := true, errOpen := true,
    listening := true, main := MainPc.draining }

/-! ## Auxiliary definitions for the proofs -/

/-- The key of the Log entry a signal writes (the index expression in `receive`). -/
def sigKey (s : Signal) : Int :=
  match s with
  | .status signal => if signal > 0 then signal else neg64 signal
  | .err signal => signal

/-- The state a signal writes (the assigned value in `receive`). -/
def sigVal (s : Signal) : Int :=
  match s with
  | .status signal => if signal > 0 then 0 else 1
  | .err _ => -1

/-- The two signals a worker sends for one job, read off the job as handed over. -/
def jobSignals (j : Job) : List Signal :=
  [Signal.status j.JobID, if j.Done then Signal.err j.JobID else Signal.status (neg64 j.JobID)]

/-- The keys of the entries whose state is `v`, in the order of the entries. -/
def keysWith (m : Log) (v : Int) : List Int :=
  (m.filter (fun e => decide (e.2 = v))).map Prod.fst

/-- Both channels open, the listening goroutine in its loop, the main goroutine not
past the receive loop of `close`. -/
def Blocked (s : Sys) : Prop :=
  s.statusOpen = true ∧ s.errOpen = true ∧ s.listening = true ∧
    (s.main = MainPc.waiting ∨ s.main = MainPc.draining)

/-! ## Auxiliary facts: machine integers -/

theorem neg64_of_pos {x : Int} (h0 : 0 < x) (h1 : x < 2 ^ 63) : neg64 x = -x := by
  unfold neg64 wrap64
  omega

theorem neg64_of_neg {x : Int} (h0 : x < 0) (h1 : -2 ^ 63 < x) : neg64 x = -x := by
  unfold neg64 wrap64
  omega

/-! ## Auxiliary facts: the Log -/

theorem Log.get?_set_self (m : Log) (k v : Int) : (m.set k v).get? k = some v := by
  induction m with
  | nil => simp [Log.set, Log.get?]
  | cons e rest ih =>
    obtain ⟨k1, v1⟩ := e
    by_cases h : k1 = k
    · simp [Log.set, Log.get?, h]
    · simp [Log.set, Log.get?, h, ih]

theorem Log.get?_set_ne (m : Log) (k v : Int) {k2 : Int} (hne : k2 ≠ k) :
    (m.set k v).get? k2 = m.get? k2 := by
  induction m with
  | nil => simp [Log.set, Log.get?, Ne.symm hne]
  | cons e rest ih =>
    obtain ⟨k1, v1⟩ := e
    by_cases h : k1 = k
    · subst h
      simp [Log.set, Log.get?, Ne.symm hne]
    · have hs : Log.set ((k1, v1) :: rest) k v = (k1, v1) :: Log.set rest k v := by
        simp [Log.set, h]
      rw [hs]
      by_cases h2 : k1 = k2
      · simp [Log.get?, h2]
      · simp [Log.get?, h2, ih]

theorem Log.mem_keys_set (m : Log) (k v k2 : Int) :
    k2 ∈ (m.set k v).keys ↔ k2 = k ∨ k2 ∈ m.keys := by
  induction m with
  | nil => simp [Log.set, Log.keys]
  | cons e rest ih =>
    obtain ⟨k1, v1⟩ := e
    by_cases h : k1 = k
    · subst h
      simp [Log.set, Log.keys]
    · simp only [Log.keys] at ih
      simp [Log.set, Log.keys, h, ih]
      tauto

theorem Log.nodup_keys_set (m : Log) (k v : Int) (h : m.keys.Nodup) :
    (m.set k v).keys.Nodup := by
  induction m with
  | nil => simp [Log.set, Log.keys]
  | cons e rest ih =>
    obtain ⟨k1, v1⟩ := e
    have hk : (Log.keys ((k1, v1) :: rest)) = k1 :: Log.keys rest := rfl
    rw [hk, List.nodup_cons] at h
    by_cases hc : k1 = k
    · subst hc
      simpa [Log.set, Log.keys] using h
    · have hs : Log.set ((k1, v1) :: rest) k v = (k1, v1) :: Log.set rest k v := by
        simp [Log.set, hc]
      have hk2 : Log.keys ((k1, v1) :: Log.set rest k v) = k1 :: Log.keys (Log.set rest k v) := rfl
      rw [hs, hk2, List.nodup_cons]
      refine ⟨?_, ih h.2⟩
      rw [Log.mem_keys_set]
      rintro (h1 | h1)
      · exact hc h1
      · exact h.1 h1

theorem Log.mem_keys_iff (m : Log) (k : Int) : k ∈ m.keys ↔ m.get? k ≠ none := by
  induction m with
  | nil => simp [Log.keys, Log.get?]
  | cons e rest ih =>
    obtain ⟨k1, v1⟩ := e
    simp only [Log.keys] at ih
    by_cases h : k1 = k
    · simp [Log.keys, Log.get?, h]
    · simp [Log.keys, Log.get?, h, ih, Ne.symm h]

theorem Log.get?_eq_some_iff (m : Log) (h : m.keys.Nodup) (k v : Int) :
    m.get? k = some v ↔ (k, v) ∈ m := by
  induction m with
  | nil => simp [Log.get?]
  | cons e rest ih =>
    obtain ⟨k1, v1⟩ := e
    have hk : (Log.keys ((k1, v1) :: rest)) = k1 :: Log.keys rest := rfl
    rw [hk, List.nodup_cons] at h
    by_cases hc : k1 = k
    · subst hc
      have hno : ∀ v2, (k1, v2) ∉ rest := by
        intro v2 hm
        exact h.1 (List.mem_map.2 ⟨(k1, v2), hm, rfl⟩)
      simp only [Log.get?, if_true, Option.some.injEq, List.mem_cons, Prod.mk.injEq, true_and]
      constructor
      · intro hv
        exact Or.inl hv.symm
      · rintro (hv | hv)
        · exact hv.symm
        · exact absurd hv (hno v)
    · simp [Log.get?, hc, ih h.2, Ne.symm hc]

/-! ## Auxiliary facts: the receive loop -/

theorem receiveStep_eq_set (m : Log) (s : Signal) :
    receiveStep m s = m.set (sigKey s) (sigVal s) := by
  cases s with
  | status v =>
    by_cases h : v > 0
    · simp [receiveStep, sigKey, sigVal, h]
    · simp [receiveStep, sigKey, sigVal, h]
  | err v => simp [receiveStep, sigKey, sigVal]

theorem receiveAll_cons (m : Log) (s : Signal) (t : List Signal) :
    receiveAll m (s :: t) = receiveAll (receiveStep m s) t := rfl

theorem nodup_keys_receiveAll (t : List Signal) (m : Log) (h : m.keys.Nodup) :
    (receiveAll m t).keys.Nodup := by
  induction t generalizing m with
  | nil => exact h
  | cons s t ih =>
    rw [receiveAll_cons]
    apply ih
    rw [receiveStep_eq_set]
    exact Log.nodup_keys_set m _ _ h

/-- Only the signals that write key `k` matter for the entry at `k`. -/
theorem get?_receiveAll_filter (k : Int) (t : List Signal) (m1 m2 : Log)
    (h : m1.get? k = m2.get? k) :
    (receiveAll m1 t).get? k =
      (receiveAll m2 (t.filter (fun s => decide (sigKey s = k)))).get? k := by
  induction t generalizing m1 m2 with
  | nil => simpa [receiveAll] using h
  | cons s t ih =>
    by_cases hk : sigKey s = k
    · rw [List.filter_cons_of_pos (by simpa using hk), receiveAll_cons, receiveAll_cons]
      apply ih
      rw [receiveStep_eq_set, receiveStep_eq_set, hk, Log.get?_set_self, Log.get?_set_self]
    · rw [List.filter_cons_of_neg (by simpa using hk), receiveAll_cons]
      apply ih
      rw [receiveStep_eq_set, Log.get?_set_ne _ _ _ (Ne.symm hk), h]

/-! ## Auxiliary facts: interleavings -/

/-- Every worker's signals occur in an interleaving in the worker's own order. -/
theorem Interleaving.sublist {ws : List (List Signal)} {t : List Signal}
    (h : Interleaving ws t) : ∀ w ∈ ws, List.Sublist w t := by
  induction h with
  | done ws hnil =>
    intro w hw
    rw [hnil w hw]
  | step ws pre post s rest t hws _ ih =>
    intro w hw
    subst hws
    rcases List.mem_append.1 hw with h1 | h1
    · exact (ih w (List.mem_append_left _ h1)).cons s
    · rcases List.mem_cons.1 h1 with h2 | h2
      · subst h2
        exact (ih rest (List.mem_append_right _ (List.mem_cons_self _ _))).cons₂ s
      · exact (ih w (List.mem_append_right _ (List.mem_cons_of_mem _ h2))).cons s

/-- An interleaving holds exactly the signals of the workers, each as often as sent. -/
theorem Interleaving.perm {ws : List (List Signal)} {t : List Signal}
    (h : Interleaving ws t) : List.Perm t ws.flatten := by
  induction h with
  | done ws hnil =>
    have : ws.flatten = [] := List.flatten_eq_nil_iff.2 hnil
    rw [this]
  | step ws pre post s rest t hws _ ih =>
    subst hws
    have h1 : List.Perm (s :: t) (s :: (pre ++ rest :: post).flatten) := ih.cons s
    refine h1.trans ?_
    simp only [List.flatten_append, List.flatten_cons, List.cons_append]
    exact List.perm_middle.symm

/-- A worker with nothing to send does not change the interleavings. -/
theorem Interleaving.cons_nil {ws : List (List Signal)} {t : List Signal}
    (h : Interleaving ws t) : Interleaving ([] :: ws) t := by
  induction h with
  | done ws1 hnil =>
    refine Interleaving.done _ ?_
    intro w hw
    rcases List.mem_cons.1 hw with h | h
    · exact h
    · exact hnil w h
  | step ws1 pre post s rest t hws _ ih =>
    exact Interleaving.step _ ([] :: pre) post s rest t (by rw [hws]; rfl) ih

/-- Running the workers one after the other is an interleaving. -/
theorem Interleaving.flatten (ws : List (List Signal)) : Interleaving ws ws.flatten := by
  induction ws with
  | nil => exact Interleaving.done [] (by simp)
  | cons w ws ih =>
    induction w with
    | nil => simpa using ih.cons_nil
    | cons s rest ihw =>
      exact Interleaving.step _ [] ws s rest _ rfl (by simpa using ihw)

/-! ## Auxiliary facts: workers -/

theorem Execute_fst_JobID (j : Job) : (Execute j).1.JobID = j.JobID := by
  unfold Execute
  split <;> rfl

theorem Execute_snd (j : Job) : (Execute j).2 = !j.Done := by
  unfold Execute
  cases h : j.Done <;> simp

theorem batchProcess_fst (data : List Job) : (batchProcess data).1 = data := by
  induction data with
  | nil => rfl
  | cons j rest ih => simp [batchProcess, ih]

theorem workerSignals_nil : workerSignals [] = [] := rfl

theorem workerSignals_cons (j : Job) (rest : List Job) :
    workerSignals (j :: rest) = jobSignals j ++ workerSignals rest := by
  cases h : j.Done <;>
    simp [workerSignals, batchProcess, jobSignals, Execute_fst_JobID, Execute_snd, h]

theorem workerSignals_eq_flatMap (data : List Job) :
    workerSignals data = data.flatMap jobSignals := by
  induction data with
  | nil => rfl
  | cons j rest ih => rw [workerSignals_cons, ih, List.flatMap_cons]

theorem workerSignals_append (a b : List Job) :
    workerSignals (a ++ b) = workerSignals a ++ workerSignals b := by
  simp [workerSignals_eq_flatMap, List.flatMap_append]

theorem flatten_map_workerSignals (segs : List (List Job)) :
    (segs.map workerSignals).flatten = workerSignals segs.flatten := by
  induction segs with
  | nil => rfl
  | cons a rest ih => simp [workerSignals_append, ih]

theorem jobSignals_sublist_workerSignals {j : Job} {data : List Job} (h : j ∈ data) :
    List.Sublist (jobSignals j) (workerSignals data) := by
  induction data with
  | nil => cases h
  | cons a rest ih =>
    rw [workerSignals_cons]
    rcases List.mem_cons.1 h with h1 | h1
    · subst h1
      exact List.sublist_append_left _ _
    · exact (ih h1).trans (List.sublist_append_right _ _)

/-! ## Auxiliary facts: segmentation -/

theorem sliceJobs_natCast (q : List Job) (a b : Nat) (hab : a ≤ b) (hb : b ≤ q.length) :
    sliceJobs q (a : Int) (b : Int) = some ((q.drop a).take (b - a)) := by
  unfold sliceJobs
  have h : 0 ≤ (a : Int) ∧ (a : Int) ≤ (b : Int) ∧ (b : Int) ≤ (q.length : Int) := by
    omega
  rw [if_pos h]
  simp

/-- The closed form of the segments: segment `k` is `q[k*s : (k+1)*s]`. -/
theorem segmentsLoop_natCast (q : List Job) (s : Nat) (n i : Nat)
    (h : (i + n) * s ≤ q.length) :
    segmentsLoop q (s : Int) n (i : Int) =
      some ((List.range' i n).map (fun k => (q.drop (k * s)).take s)) := by
  induction n generalizing i with
  | zero => simp [segmentsLoop]
  | succ n ih =>
    have h1 : (i + 1 + n) * s ≤ q.length := by
      have : i + 1 + n = i + (n + 1) := by omega
      rw [this]; exact h
    have h2 : (i + 1) * s ≤ q.length := by
      have : (i + 1) * s ≤ (i + (n + 1)) * s := Nat.mul_le_mul_right s (by omega)
      omega
    have h3 : i * s ≤ (i + 1) * s := Nat.mul_le_mul_right s (by omega)
    have h4 : (i + 1) * s - i * s = s := by
      rw [Nat.add_mul]; omega
    have e1 : (i : Int) * (s : Int) = ((i * s : Nat) : Int) := by push_cast; rfl
    have e2 : ((i : Int) + 1) * (s : Int) = (((i + 1) * s : Nat) : Int) := by push_cast; rfl
    have e3 : (i : Int) + 1 = ((i + 1 : Nat) : Int) := by push_cast; rfl
    simp only [segmentsLoop]
    rw [e1, e2, sliceJobs_natCast q _ _ h3 h2, e3, ih (i + 1) h1, h4]
    simp [List.range'_succ]

theorem flatten_range_segments (q : List Job) (s : Nat) (n i : Nat) :
    ((List.range' i n).map (fun k => (q.drop (k * s)).take s)).flatten =
      (q.drop (i * s)).take (n * s) := by
  induction n generalizing i with
  | zero => simp
  | succ n ih =>
    rw [List.range'_succ, List.map_cons, List.flatten_cons, ih (i + 1)]
    have e : (n + 1) * s = s + n * s := by rw [Nat.add_mul]; omega
    rw [e, List.take_add, List.drop_drop]
    congr 3
    rw [Nat.add_mul]; omega

theorem tdiv_natCast (a b : Nat) : Int.tdiv (a : Int) (b : Int) = ((a / b : Nat) : Int) := rfl

/-- With at least one worker the segmentation succeeds, in closed form. -/
theorem segments_of_pos (q : List Job) (threads : Int) (h : 1 ≤ threads) :
    segments q threads =
      some ((List.range threads.toNat).map
        (fun k => (q.drop (k * (q.length / threads.toNat))).take (q.length / threads.toNat))) := by
  obtain ⟨T, hT⟩ : ∃ T : Nat, threads = (T : Int) := ⟨threads.toNat, by omega⟩
  subst hT
  have hT0 : T ≠ 0 := by omega
  have hne : ((T : Int) = 0) = False := by simp [hT0]
  unfold segments
  simp only [hne, if_false, Int.toNat_ofNat, tdiv_natCast]
  have hb : (0 + T) * (q.length / T) ≤ q.length := by
    rw [Nat.zero_add]
    exact Nat.mul_div_le q.length T
  have := segmentsLoop_natCast q (q.length / T) T 0 hb
  simpa [List.range_eq_range'] using this

theorem segments_flatten_of_pos (q : List Job) (threads : Int) (h : 1 ≤ threads)
    (segs : List (List Job)) (hs : segments q threads = some segs) :
    segs.flatten = q.take (threads.toNat * (q.length / threads.toNat)) := by
  rw [segments_of_pos q threads h] at hs
  injection hs with hs
  rw [← hs, List.range_eq_range', flatten_range_segments]
  simp

/-! ## Auxiliary facts: the report -/

theorem foldl_reportEntry (m : Log) (acc : Report) :
    m.foldl reportEntry acc =
      { running := acc.running ++ keysWith m 0,
        complete := acc.complete ++ keysWith m 1,
        failed := acc.failed ++ keysWith m (-1) } := by
  induction m generalizing acc with
  | nil => simp [keysWith]
  | cons e rest ih =>
    rw [List.foldl_cons, ih]
    by_cases h1 : e.2 = -1
    · simp [reportEntry, keysWith, h1]
    · by_cases h2 : e.2 = 0
      · simp [reportEntry, keysWith, h2]
      · by_cases h3 : e.2 = 1
        · simp [reportEntry, keysWith, h3]
        · simp [reportEntry, keysWith, h1, h2, h3]

theorem report_eq (m : Log) :
    report m =
      { running := sortInts (keysWith m 0),
        complete := sortInts (keysWith m 1),
        failed := sortInts (keysWith m (-1)) } := by
  simp [report, foldl_reportEntry]

theorem mem_keysWith (m : Log) (h : m.keys.Nodup) (k v : Int) :
    k ∈ keysWith m v ↔ m.get? k = some v := by
  rw [Log.get?_eq_some_iff m h]
  simp [keysWith]

theorem nodup_keysWith (m : Log) (h : m.keys.Nodup) (v : Int) : (keysWith m v).Nodup := by
  have hsub : List.Sublist (keysWith m v) m.keys :=
    (List.filter_sublist m).map Prod.fst
  exact h.sublist hsub

theorem sorted_sortInts (l : List Int) : List.Sorted (fun a b => a ≤ b) (sortInts l) :=
  List.sorted_insertionSort _ l

theorem perm_sortInts (l : List Int) : List.Perm (sortInts l) l :=
  List.perm_insertionSort _ l

theorem mem_sortInts (l : List Int) (k : Int) : k ∈ sortInts l ↔ k ∈ l :=
  (perm_sortInts l).mem_iff

theorem nodup_sortInts (l : List Int) (h : l.Nodup) : (sortInts l).Nodup :=
  (perm_sortInts l).nodup_iff.2 h

/-- Two sorted duplicate-free lists with the same members are equal. -/
theorem sortInts_congr (a b : List Int) (ha : a.Nodup) (hb : b.Nodup)
    (h : ∀ k, k ∈ a ↔ k ∈ b) : sortInts a = sortInts b := by
  have hp : List.Perm (sortInts a) (sortInts b) :=
    (perm_sortInts a).trans (((List.perm_ext_iff_of_nodup ha hb).2 h).trans (perm_sortInts b).symm)
  exact List.eq_of_perm_of_sorted hp (sorted_sortInts a) (sorted_sortInts b)

theorem mem_report_running (m : Log) (h : m.keys.Nodup) (k : Int) :
    k ∈ (report m).running ↔ m.get? k = some 0 := by
  rw [report_eq]
  exact (mem_sortInts _ k).trans (mem_keysWith m h k 0)

theorem mem_report_complete (m : Log) (h : m.keys.Nodup) (k : Int) :
    k ∈ (report m).complete ↔ m.get? k = some 1 := by
  rw [report_eq]
  exact (mem_sortInts _ k).trans (mem_keysWith m h k 1)

theorem mem_report_failed (m : Log) (h : m.keys.Nodup) (k : Int) :
    k ∈ (report m).failed ↔ m.get? k = some (-1) := by
  rw [report_eq]
  exact (mem_sortInts _ k).trans (mem_keysWith m h k (-1))

/-! ## Auxiliary facts: the final Log -/

theorem sigKey_jobSignals {j : Job} (h0 : 0 < j.JobID) (h1 : j.JobID < 2 ^ 63) :
    ∀ s ∈ jobSignals j, sigKey s = j.JobID := by
  intro s hs
  have hn : neg64 j.JobID = -j.JobID := neg64_of_pos h0 h1
  have hnn : neg64 (-j.JobID) = j.JobID := by
    rw [neg64_of_neg (by omega) (by omega)]; omega
  have hnp : ¬ (-j.JobID > 0) := by omega
  cases hd : j.Done <;> simp [jobSignals, hd] at hs <;> rcases hs with hs | hs <;> subst hs <;>
    simp [sigKey, h0, hn, hnn, hnp]

theorem filter_jobSignals_self {j : Job} (h0 : 0 < j.JobID) (h1 : j.JobID < 2 ^ 63) :
    (jobSignals j).filter (fun s => decide (sigKey s = j.JobID)) = jobSignals j := by
  rw [List.filter_eq_self]
  intro s hs
  simpa using sigKey_jobSignals h0 h1 s hs

theorem filter_jobSignals_ne {j : Job} (h0 : 0 < j.JobID) (h1 : j.JobID < 2 ^ 63) {k : Int}
    (hk : j.JobID ≠ k) :
    (jobSignals j).filter (fun s => decide (sigKey s = k)) = [] := by
  rw [List.filter_eq_nil_iff]
  intro s hs
  have := sigKey_jobSignals h0 h1 s hs
  simp [this, hk]

theorem filter_workerSignals_none (d : List Job)
    (hpos : ∀ j ∈ d, 0 < j.JobID ∧ j.JobID < 2 ^ 63) (k : Int)
    (hk : ∀ j ∈ d, j.JobID ≠ k) :
    (workerSignals d).filter (fun s => decide (sigKey s = k)) = [] := by
  induction d with
  | nil => rfl
  | cons a rest ih =>
    rw [workerSignals_cons, List.filter_append,
      filter_jobSignals_ne (hpos a (List.mem_cons_self _ _)).1 (hpos a (List.mem_cons_self _ _)).2
        (hk a (List.mem_cons_self _ _)),
      ih (fun j hj => hpos j (List.mem_cons_of_mem _ hj))
        (fun j hj => hk j (List.mem_cons_of_mem _ hj))]
    rfl

theorem filter_workerSignals_mem (d : List Job)
    (hpos : ∀ j ∈ d, 0 < j.JobID ∧ j.JobID < 2 ^ 63) (hnd : (d.map Job.JobID).Nodup)
    (j : Job) (hj : j ∈ d) :
    (workerSignals d).filter (fun s => decide (sigKey s = j.JobID)) = jobSignals j := by
  induction d with
  | nil => cases hj
  | cons a rest ih =>
    rw [List.map_cons, List.nodup_cons] at hnd
    have hpa := hpos a (List.mem_cons_self _ _)
    have hprest : ∀ x ∈ rest, 0 < x.JobID ∧ x.JobID < 2 ^ 63 :=
      fun x hx => hpos x (List.mem_cons_of_mem _ hx)
    rw [workerSignals_cons, List.filter_append]
    by_cases hid : a.JobID = j.JobID
    · have hja : j = a := by
        rcases List.mem_cons.1 hj with h | h
        · exact h
        · exact absurd (List.mem_map.2 ⟨j, h, hid.symm⟩) hnd.1
      subst hja
      rw [filter_jobSignals_self hpa.1 hpa.2, filter_workerSignals_none rest hprest]
      · simp
      · intro x hx hxe
        exact hnd.1 (List.mem_map.2 ⟨x, hx, hxe⟩)
    · have hjr : j ∈ rest := by
        rcases List.mem_cons.1 hj with h | h
        · exact absurd (by rw [h]) hid
        · exact h
      rw [filter_jobSignals_ne hpa.1 hpa.2 hid, ih hprest hnd.2 hjr]
      rfl

/-- In every interleaving, the signals that write the entry of a dispatched job are the
two signals of that job, start first. -/
theorem filter_interleaving_mem (segs : List (List Job)) (t : List Signal)
    (hpos : ∀ j ∈ segs.flatten, 0 < j.JobID ∧ j.JobID < 2 ^ 63)
    (hnd : (segs.flatten.map Job.JobID).Nodup)
    (ht : Interleaving (segs.map workerSignals) t) (j : Job) (hj : j ∈ segs.flatten) :
    t.filter (fun s => decide (sigKey s = j.JobID)) = jobSignals j := by
  have hperm : List.Perm (t.filter (fun s => decide (sigKey s = j.JobID))) (jobSignals j) := by
    have h1 := ht.perm.filter (fun s => decide (sigKey s = j.JobID))
    rwa [flatten_map_workerSignals, filter_workerSignals_mem _ hpos hnd j hj] at h1
  obtain ⟨seg, hseg, hjs⟩ := List.mem_flatten.1 hj
  have hsub : List.Sublist (jobSignals j) t :=
    (jobSignals_sublist_workerSignals hjs).trans
      (ht.sublist _ (List.mem_map.2 ⟨seg, hseg, rfl⟩))
  have hsub2 := hsub.filter (fun s => decide (sigKey s = j.JobID))
  have hp := hpos j hj
  rw [filter_jobSignals_self hp.1 hp.2] at hsub2
  exact (hsub2.eq_of_length hperm.length_eq.symm).symm

theorem filter_interleaving_none (segs : List (List Job)) (t : List Signal)
    (hpos : ∀ j ∈ segs.flatten, 0 < j.JobID ∧ j.JobID < 2 ^ 63)
    (ht : Interleaving (segs.map workerSignals) t) (k : Int)
    (hk : ∀ j ∈ segs.flatten, j.JobID ≠ k) :
    t.filter (fun s => decide (sigKey s = k)) = [] := by
  have h1 := ht.perm.filter (fun s => decide (sigKey s = k))
  rw [flatten_map_workerSignals, filter_workerSignals_none _ hpos k hk] at h1
  exact List.Perm.eq_nil h1

theorem get?_receiveAll_jobSignals {j : Job} (h0 : 0 < j.JobID) (h1 : j.JobID < 2 ^ 63) :
    (receiveAll [] (jobSignals j)).get? j.JobID = some (if j.Done then -1 else 1) := by
  have hk := sigKey_jobSignals h0 h1
  have hn : neg64 j.JobID = -j.JobID := neg64_of_pos h0 h1
  have hnp : ¬ (-j.JobID > 0) := by omega
  cases hd : j.Done
  · have e : jobSignals j = [Signal.status j.JobID, Signal.status (neg64 j.JobID)] := by
      simp [jobSignals, hd]
    have hk2 : sigKey (Signal.status (neg64 j.JobID)) = j.JobID :=
      hk _ (by rw [e]; simp)
    rw [e, receiveAll_cons, receiveAll_cons, receiveStep_eq_set _ (Signal.status (neg64 j.JobID)),
      hk2]
    simp [receiveAll, Log.get?_set_self, sigVal, hn, hnp]
  · have e : jobSignals j = [Signal.status j.JobID, Signal.err j.JobID] := by
      simp [jobSignals, hd]
    rw [e, receiveAll_cons, receiveAll_cons, receiveStep_eq_set _ (Signal.err j.JobID)]
    simp [receiveAll, sigKey, Log.get?_set_self, sigVal]

/-- The final state of a dispatched job, in every interleaving. -/
theorem final_get?_mem (segs : List (List Job)) (t : List Signal)
    (hpos : ∀ j ∈ segs.flatten, 0 < j.JobID ∧ j.JobID < 2 ^ 63)
    (hnd : (segs.flatten.map Job.JobID).Nodup)
    (ht : Interleaving (segs.map workerSignals) t) (j : Job) (hj : j ∈ segs.flatten) :
    (receiveAll [] t).get? j.JobID = some (if j.Done then -1 else 1) := by
  rw [get?_receiveAll_filter j.JobID t [] [] rfl,
    filter_interleaving_mem segs t hpos hnd ht j hj]
  exact get?_receiveAll_jobSignals (hpos j hj).1 (hpos j hj).2

/-- An id that no dispatched job carries has no entry in the final Log. -/
theorem final_get?_none (segs : List (List Job)) (t : List Signal)
    (hpos : ∀ j ∈ segs.flatten, 0 < j.JobID ∧ j.JobID < 2 ^ 63)
    (ht : Interleaving (segs.map workerSignals) t) (k : Int)
    (hk : ∀ j ∈ segs.flatten, j.JobID ≠ k) :
    (receiveAll [] t).get? k = none := by
  rw [get?_receiveAll_filter k t [] [] rfl, filter_interleaving_none segs t hpos ht k hk]
  rfl

/-- A state that no signal for key `k` writes is never the state of `k`. -/
theorem get?_receiveAll_ne (k v : Int) (p : List Signal) (m : Log)
    (hm : m.get? k ≠ some v) (hp : ∀ s ∈ p, sigKey s = k → sigVal s ≠ v) :
    (receiveAll m p).get? k ≠ some v := by
  induction p generalizing m with
  | nil => exact hm
  | cons s p ih =>
    rw [receiveAll_cons]
    apply ih
    · rw [receiveStep_eq_set]
      by_cases hk : sigKey s = k
      · rw [hk, Log.get?_set_self]
        intro h
        exact hp s (List.mem_cons_self _ _) hk (Option.some.inj h)
      · rw [Log.get?_set_ne _ _ _ (Ne.symm hk)]
        exact hm
    · intro s2 hs2
      exact hp s2 (List.mem_cons_of_mem _ hs2)

/-- A job handed over with `Done` set is not recorded as complete after any prefix of
the run. -/
theorem prefix_never_complete (segs : List (List Job)) (t : List Signal)
    (hpos : ∀ j ∈ segs.flatten, 0 < j.JobID ∧ j.JobID < 2 ^ 63)
    (hnd : (segs.flatten.map Job.JobID).Nodup)
    (ht : Interleaving (segs.map workerSignals) t) (j : Job) (hj : j ∈ segs.flatten)
    (hd : j.Done = true) (p : List Signal) (hp : p <+: t) :
    (receiveAll [] p).get? j.JobID ≠ some 1 := by
  apply get?_receiveAll_ne
  · simp [Log.get?]
  · intro s hs hk
    have hmem : s ∈ t.filter (fun s => decide (sigKey s = j.JobID)) :=
      List.mem_filter.2 ⟨hp.subset hs, by simpa using hk⟩
    rw [filter_interleaving_mem segs t hpos hnd ht j hj] at hmem
    have h0 := (hpos j hj).1
    simp [jobSignals, hd] at hmem
    rcases hmem with h | h <;> subst h <;> simp [sigVal, h0]

theorem segments_of_neg (q : List Job) (threads : Int) (h : threads < 0) :
    segments q threads = some [] := by
  have hne : ¬ threads = 0 := by omega
  have h0 : threads.toNat = 0 := by omega
  simp [segments, hne, h0, segmentsLoop]

/-- The dispatched jobs are jobs of the queue, in the order of the queue. -/
theorem segments_flatten_sublist (q : List Job) (threads : Int) (segs : List (List Job))
    (hs : segments q threads = some segs) : List.Sublist segs.flatten q := by
  rcases lt_trichotomy threads 0 with h | h | h
  · rw [segments_of_neg q threads h] at hs
    injection hs with hs
    rw [← hs]
    simp
  · simp [segments, h] at hs
  · rw [segments_flatten_of_pos q threads (by omega) segs hs]
    exact List.take_sublist _ _

/-- The report of the final Log: nothing running, the jobs handed over with `Done`
unset complete, the others failed. -/
theorem report_final (segs : List (List Job)) (t : List Signal)
    (hpos : ∀ j ∈ segs.flatten, 0 < j.JobID ∧ j.JobID < 2 ^ 63)
    (hnd : (segs.flatten.map Job.JobID).Nodup)
    (ht : Interleaving (segs.map workerSignals) t) :
    report (receiveAll [] t) =
      { running := [],
        complete := sortInts ((segs.flatten.filter (fun j => !j.Done)).map Job.JobID),
        failed := sortInts ((segs.flatten.filter (fun j => j.Done)).map Job.JobID) } := by
  have hm : (receiveAll [] t).keys.Nodup := nodup_keys_receiveAll t [] (by simp [Log.keys])
  have hget : ∀ k v, (receiveAll [] t).get? k = some v ↔
      ∃ j ∈ segs.flatten, j.JobID = k ∧ v = (if j.Done then -1 else 1) := by
    intro k v
    by_cases hk : ∃ j ∈ segs.flatten, j.JobID = k
    · obtain ⟨j, hj, hjk⟩ := hk
      subst hjk
      rw [final_get?_mem segs t hpos hnd ht j hj]
      constructor
      · intro h
        exact ⟨j, hj, rfl, (Option.some.inj h).symm⟩
      · rintro ⟨j2, hj2, hid, hv⟩
        have : j2 = j := by
          by_contra hne
          have := List.inj_on_of_nodup_map hnd hj2 hj hid
          exact hne this
        rw [hv, this]
    · have hk2 : ∀ j ∈ segs.flatten, j.JobID ≠ k := fun j hj he => hk ⟨j, hj, he⟩
      rw [final_get?_none segs t hpos ht k hk2]
      constructor
      · intro h; cases h
      · rintro ⟨j, hj, he, _⟩
        exact absurd he (hk2 j hj)
  have hsub1 : ∀ (f : Job → Bool), ((segs.flatten.filter f).map Job.JobID).Nodup :=
    fun f => hnd.sublist ((List.filter_sublist _).map _)
  rw [report_eq]
  have hrun : keysWith (receiveAll [] t) 0 = [] := by
    rw [List.eq_nil_iff_forall_not_mem]
    intro k hk
    rw [mem_keysWith _ hm, hget] at hk
    obtain ⟨j, _, _, hv⟩ := hk
    cases hd : j.Done <;> simp [hd] at hv
  have hcomp : sortInts (keysWith (receiveAll [] t) 1) =
      sortInts ((segs.flatten.filter (fun j => !j.Done)).map Job.JobID) := by
    apply sortInts_congr _ _ (nodup_keysWith _ hm 1) (hsub1 _)
    intro k
    rw [mem_keysWith _ hm, hget]
    simp only [List.mem_map, List.mem_filter]
    constructor
    · rintro ⟨j, hj, hid, hv⟩
      refine ⟨j, ⟨hj, ?_⟩, hid⟩
      cases hd : j.Done
      · rfl
      · simp [hd] at hv
    · rintro ⟨j, ⟨hj, hd⟩, hid⟩
      refine ⟨j, hj, hid, ?_⟩
      cases hd2 : j.Done
      · simp
      · simp [hd2] at hd
  have hfail : sortInts (keysWith (receiveAll [] t) (-1)) =
      sortInts ((segs.flatten.filter (fun j => j.Done)).map Job.JobID) := by
    apply sortInts_congr _ _ (nodup_keysWith _ hm (-1)) (hsub1 _)
    intro k
    rw [mem_keysWith _ hm, hget]
    simp only [List.mem_map, List.mem_filter]
    constructor
    · rintro ⟨j, hj, hid, hv⟩
      refine ⟨j, ⟨hj, ?_⟩, hid⟩
      cases hd : j.Done
      · simp [hd] at hv
      · rfl
    · rintro ⟨j, ⟨hj, hd⟩, hid⟩
      exact ⟨j, hj, hid, by simp [hd]⟩
  rw [hrun, hcomp, hfail]
  rfl

/-! ## Job.Execute -/

/-- C4: on a job whose `Done` flag is unset, the first `Execute` returns true and sets the
flag, the second returns false, the flag is still set after it, and the second call
leaves the job exactly as the first call left it. -/
theorem Execute_twice (j : Job) (h : j.Done = false) :
    (Execute j).2 = true ∧
    (Execute (Execute j).1).2 = false ∧
    (Execute j).1.Done = true ∧
    (Execute (Execute j).1).1.Done = true ∧
    (Execute (Execute j).1).1 = (Execute j).1 := by
  simp [Execute, h]

theorem Execute_twice_witness :
    (Execute (Execute { JobID := 7, SleepTime := 3, Done := false }).1) =
      ({ JobID := 7, SleepTime := 3, Done := true }, false) ∧
    (Execute { JobID := 7, SleepTime := 3, Done := false }).2 = true ∧
    (Execute (Execute { JobID := 7, SleepTime := 3, Done := false }).1).2 = false ∧
    (Execute { JobID := 7, SleepTime := 3, Done := false }).1.Done = true ∧
    (Execute (Execute { JobID := 7, SleepTime := 3, Done := false }).1).1.Done = true ∧
    (Execute (Execute { JobID := 7, SleepTime := 3, Done := false }).1).1 =
      (Execute { JobID := 7, SleepTime := 3, Done := false }).1 :=
  ⟨by decide, Execute_twice { JobID := 7, SleepTime := 3, Done := false } rfl⟩

/-! ## Monitor.receive -/

/-- C5: one pass of the receive loop on a status value `v` writes `running` at key `v`
when `v > 0` and `complete` at key `-v` (Go's negation) when `v < 0`; on an error value
`v` it writes `failed` at key `v`. Every other key reads as before and every key of the
Log is still a key. Go's `-v` is the integer `-v` unless `v` is the least `int`. -/
theorem receiveStep_update (m : Log) (v : Int) :
    (0 < v → (receiveStep m (Signal.status v)).get? v = some running ∧
      ∀ k, k ≠ v → (receiveStep m (Signal.status v)).get? k = m.get? k) ∧
    (v < 0 → (receiveStep m (Signal.status v)).get? (neg64 v) = some complete ∧
      ∀ k, k ≠ neg64 v → (receiveStep m (Signal.status v)).get? k = m.get? k) ∧
    ((receiveStep m (Signal.err v)).get? v = some failed ∧
      ∀ k, k ≠ v → (receiveStep m (Signal.err v)).get? k = m.get? k) ∧
    (∀ s k, k ∈ m.keys → k ∈ (receiveStep m s).keys) ∧
    (v < 0 → -2 ^ 63 < v → neg64 v = -v) := by
  refine ⟨?_, ?_, ?_, ?_, ?_⟩
  · intro hv
    have e : receiveStep m (Signal.status v) = m.set v 0 := by simp [receiveStep, hv]
    rw [e]
    exact ⟨Log.get?_set_self m v 0, fun k hk => Log.get?_set_ne m v 0 hk⟩
  · intro hv
    have hn : ¬ v > 0 := by omega
    have e : receiveStep m (Signal.status v) = m.set (neg64 v) 1 := by simp [receiveStep, hn]
    rw [e]
    exact ⟨Log.get?_set_self m _ 1, fun k hk => Log.get?_set_ne m _ 1 hk⟩
  · have e : receiveStep m (Signal.err v) = m.set v (-1) := rfl
    rw [e]
    exact ⟨Log.get?_set_self m v (-1), fun k hk => Log.get?_set_ne m v (-1) hk⟩
  · intro s k hk
    rw [receiveStep_eq_set, Log.mem_keys_set]
    exact Or.inr hk
  · intro h0 h1
    exact neg64_of_neg h0 h1

theorem receiveStep_update_witness :
    ((receiveStep [(3, 0), (4, 1)] (Signal.status (-3))).get? (neg64 (-3)) = some complete ∧
      ∀ k, k ≠ neg64 (-3) →
        (receiveStep [(3, 0), (4, 1)] (Signal.status (-3))).get? k =
          Log.get? [(3, 0), (4, 1)] k) ∧
    receiveStep [(3, 0), (4, 1)] (Signal.status (-3)) = [(3, 1), (4, 1)] ∧
    receiveStep [(3, 0), (4, 1)] (Signal.status 9) = [(3, 0), (4, 1), (9, 0)] ∧
    receiveStep [(3, 0), (4, 1)] (Signal.err 4) = [(3, 0), (4, -1)] ∧
    neg64 (-3) = 3 :=
  ⟨(receiveStep_update [(3, 0), (4, 1)] (-3)).2.1 (by decide), by decide, by decide,
    by decide, (receiveStep_update [(3, 0), (4, 1)] (-3)).2.2.2.2 (by decide) (by decide)⟩

/-! ## Monitor.batchProcess -/

/-- C6: the signals a worker sends for a segment are, job by job in the order of the
segment, the start signal `+id` on the status channel and then one terminal signal of
the same job: `-id` on the status channel when `Execute` succeeds, `+id` on the error
channel otherwise. So the signals of the job at position `i` are at positions `2i`
(start) and `2i+1` (terminal) of the sequence, which has length `2 * len`. -/
theorem batchProcess_signal_order (data : List Job) :
    workerSignals data =
      data.flatMap (fun j =>
        [Signal.status j.JobID,
          if (Execute j).2 then Signal.status (neg64 j.JobID) else Signal.err j.JobID]) ∧
    (workerSignals data).length = 2 * data.length ∧
    ∀ (i : Nat) (j : Job), data[i]? = some j →
      (workerSignals data)[2 * i]? = some (Signal.status j.JobID) ∧
      (workerSignals data)[2 * i + 1]? =
        some (if (Execute j).2 then Signal.status (neg64 j.JobID) else Signal.err j.JobID) := by
  have hjs : ∀ j : Job, jobSignals j =
      [Signal.status j.JobID,
        if (Execute j).2 then Signal.status (neg64 j.JobID) else Signal.err j.JobID] := by
    intro j
    cases hd : j.Done <;> simp [jobSignals, Execute_snd, hd]
  refine ⟨?_, ?_, ?_⟩
  · rw [workerSignals_eq_flatMap]
    congr 1
    funext j
    exact hjs j
  · induction data with
    | nil => rfl
    | cons a rest ih =>
      rw [workerSignals_cons, List.length_append, ih, hjs]
      simp only [List.length_cons, List.length_nil]
      omega
  · induction data with
    | nil => intro i j h; simp at h
    | cons a rest ih =>
      intro i j h
      rw [workerSignals_cons, hjs a]
      cases i with
      | zero =>
        simp only [List.getElem?_cons_zero, Option.some.injEq] at h
        subst h
        simp
      | succ i =>
        simp only [List.getElem?_cons_succ] at h
        have h2 := ih i j h
        have e1 : 2 * (i + 1) = (2 * i) + 1 + 1 := by omega
        rw [e1]
        simpa using h2

/-- C10: `batchProcess` leaves its segment as it was, so after `Distribute` the queue
holds the same jobs, field by field; a job for which the worker sent the completion
signal still has `Done` unset in the segment. -/
theorem batchProcess_frame (data q : List Job) (threads : Int) (hthreads : threads ≠ 0) :
    (batchProcess data).1 = data ∧
    queueAfter q threads = some q ∧
    ∀ (i : Nat) (j : Job), (batchProcess data).1[i]? = some j → (Execute j).2 = true →
      j.Done = false := by
  refine ⟨batchProcess_fst data, ?_, ?_⟩
  · rcases lt_or_gt_of_ne hthreads with h | h
    · simp [queueAfter, segments_of_neg q threads h]
    · have h1 : 1 ≤ threads := by omega
      have hs := segments_of_pos q threads h1
      have hf := segments_flatten_of_pos q threads h1 _ hs
      have hsum : ∀ segs : List (List Job), (segs.map List.length).sum = segs.flatten.length := by
        intro segs
        rw [List.length_flatten]
      have hmap : ∀ segs : List (List Job),
          segs.map (fun s => (batchProcess s).1) = segs := by
        intro segs
        simp [batchProcess_fst]
      simp only [queueAfter, hs, hmap, hsum]
      rw [hf, List.length_take]
      have hle : threads.toNat * (q.length / threads.toNat) ≤ q.length :=
        Nat.mul_div_le q.length threads.toNat
      rw [Nat.min_eq_left hle, List.take_append_drop]
  · intro i j _ hx
    rw [Execute_snd] at hx
    simpa using hx

theorem batchProcess_frame_witness :
    (batchProcess (freshQueue 3)).1 = freshQueue 3 ∧
    queueAfter (freshQueue 7) 2 = some (freshQueue 7) ∧
    (∀ (i : Nat) (j : Job), (batchProcess (freshQueue 3)).1[i]? = some j →
      (Execute j).2 = true → j.Done = false) ∧
    workerSignals (freshQueue 3) =
      [Signal.status 1, Signal.status (-1), Signal.status 2, Signal.status (-2),
        Signal.status 3, Signal.status (-3)] :=
  ⟨(batchProcess_frame (freshQueue 3) (freshQueue 7) 2 (by decide)).1,
    (batchProcess_frame (freshQueue 3) (freshQueue 7) 2 (by decide)).2.1,
    (batchProcess_frame (freshQueue 3) (freshQueue 7) 2 (by decide)).2.2, by decide⟩

/-! ## Monitor.report -/

/-- C7: for every Log (a map, so its keys are distinct) each of the three lists of
`report` is sorted in increasing order, has no repetition, and holds exactly the keys
whose state is running, complete and failed respectively; for the Log
`{1: running, 2: complete, 5: failed}` the lists are `[1]`, `[2]`, `[5]`. -/
theorem report_lists (m : Log) (h : m.keys.Nodup) :
    (List.Sorted (fun a b => a ≤ b) (report m).running ∧
      List.Sorted (fun a b => a ≤ b) (report m).complete ∧
      List.Sorted (fun a b => a ≤ b) (report m).failed) ∧
    ((report m).running.Nodup ∧ (report m).complete.Nodup ∧ (report m).failed.Nodup) ∧
    (∀ k, k ∈ (report m).running ↔ m.get? k = some running) ∧
    (∀ k, k ∈ (report m).complete ↔ m.get? k = some complete) ∧
    (∀ k, k ∈ (report m).failed ↔ m.get? k = some failed) ∧
    report [(1, running), (2, complete), (5, failed)] =
      { running := [1], complete := [2], failed := [5] } := by
  rw [report_eq]
  refine ⟨⟨sorted_sortInts _, sorted_sortInts _, sorted_sortInts _⟩,
    ⟨nodup_sortInts _ (nodup_keysWith m h _), nodup_sortInts _ (nodup_keysWith m h _),
      nodup_sortInts _ (nodup_keysWith m h _)⟩, ?_, ?_, ?_, by decide⟩
  · intro k
    exact (mem_sortInts _ k).trans (mem_keysWith m h k 0)
  · intro k
    exact (mem_sortInts _ k).trans (mem_keysWith m h k 1)
  · intro k
    exact (mem_sortInts _ k).trans (mem_keysWith m h k (-1))

theorem report_lists_witness :
    report [(5, failed), (9, running), (2, complete), (1, running), (7, 4)] =
      { running := [1, 9], complete := [2], failed := [5] } ∧
    (∀ k, k ∈ (report [(5, failed), (9, running), (2, complete), (1, running), (7, 4)]).running ↔
      Log.get? [(5, failed), (9, running), (2, complete), (1, running), (7, 4)] k =
        some running) :=
  ⟨by decide,
    (report_lists [(5, failed), (9, running), (2, complete), (1, running), (7, 4)]
      (by decide)).2.2.1⟩

/-! ## Monitor.Distribute: segmentation -/

/-- C6 at a segment of one fresh and one already executed job. -/
theorem batchProcess_signal_order_witness :
    workerSignals [{ JobID := 4, SleepTime := 0, Done := false },
        { JobID := 9, SleepTime := 0, Done := true }] =
      [Signal.status 4, Signal.status (-4), Signal.status 9, Signal.err 9] ∧
    (workerSignals [{ JobID := 4, SleepTime := 0, Done := false },
        { JobID := 9, SleepTime := 0, Done := true }])[2 * 1]? = some (Signal.status 9) ∧
    (workerSignals [{ JobID := 4, SleepTime := 0, Done := false },
        { JobID := 9, SleepTime := 0, Done := true }])[2 * 1 + 1]? =
      some (if (Execute { JobID := 9, SleepTime := 0, Done := true }).2
        then Signal.status (neg64 9) else Signal.err 9) :=
  ⟨by decide,
    (batchProcess_signal_order [{ JobID := 4, SleepTime := 0, Done := false },
      { JobID := 9, SleepTime := 0, Done := true }]).2.2 1
      { JobID := 9, SleepTime := 0, Done := true } rfl⟩

/-- C9: with `threads >= 1` every slice expression of `Distribute` is in bounds,
`0 <= i*seg <= (i+1)*seg <= len(q)` for `seg = len(q) / threads` and `0 <= i < threads`,
and the slice is obtained; the segmentation fails exactly when `threads = 0`; when
`threads > len(q)` every segment is empty. -/
theorem segmentation_in_bounds (q : List Job) (threads : Int) :
    (1 ≤ threads → ∀ i : Int, 0 ≤ i → i < threads →
      0 ≤ i * Int.tdiv (q.length : Int) threads ∧
      i * Int.tdiv (q.length : Int) threads ≤ (i + 1) * Int.tdiv (q.length : Int) threads ∧
      (i + 1) * Int.tdiv (q.length : Int) threads ≤ (q.length : Int) ∧
      (sliceJobs q (i * Int.tdiv (q.length : Int) threads)
        ((i + 1) * Int.tdiv (q.length : Int) threads)).isSome = true) ∧
    (segments q threads = none ↔ threads = 0) ∧
    ((q.length : Int) < threads →
      segments q threads = some (List.replicate threads.toNat [])) := by
  refine ⟨?_, ?_, ?_⟩
  · intro ht i hi0 hit
    obtain ⟨T, hT⟩ : ∃ T : Nat, threads = (T : Int) := ⟨threads.toNat, by omega⟩
    obtain ⟨I, hI⟩ : ∃ I : Nat, i = (I : Int) := ⟨i.toNat, by omega⟩
    subst hT hI
    rw [tdiv_natCast]
    have hIT : I + 1 ≤ T := by omega
    have h1 : (I + 1) * (q.length / T) ≤ q.length :=
      (Nat.mul_le_mul_right _ hIT).trans (Nat.mul_div_le q.length T)
    have h2 : I * (q.length / T) ≤ (I + 1) * (q.length / T) :=
      Nat.mul_le_mul_right _ (by omega)
    have e1 : (I : Int) * ((q.length / T : Nat) : Int) = ((I * (q.length / T) : Nat) : Int) := by
      push_cast; rfl
    have e2 : ((I : Int) + 1) * ((q.length / T : Nat) : Int) =
        (((I + 1) * (q.length / T) : Nat) : Int) := by
      push_cast; rfl
    rw [e1, e2, sliceJobs_natCast q _ _ h2 h1]
    refine ⟨by omega, by omega, by omega, rfl⟩
  · constructor
    · intro h
      by_contra hne
      rcases lt_or_gt_of_ne hne with h1 | h1
      · rw [segments_of_neg q threads h1] at h
        cases h
      · rw [segments_of_pos q threads (by omega)] at h
        cases h
    · intro h
      simp [segments, h]
  · intro h
    have h1 : 1 ≤ threads := by omega
    have hz : q.length / threads.toNat = 0 := Nat.div_eq_of_lt (by omega)
    rw [segments_of_pos q threads h1, hz]
    simp

theorem segmentation_in_bounds_witness :
    (0 ≤ (2 : Int) * Int.tdiv ((freshQueue 7).length : Int) 3 ∧
      (2 : Int) * Int.tdiv ((freshQueue 7).length : Int) 3 ≤
        (2 + 1) * Int.tdiv ((freshQueue 7).length : Int) 3 ∧
      (2 + 1) * Int.tdiv ((freshQueue 7).length : Int) 3 ≤ ((freshQueue 7).length : Int) ∧
      (sliceJobs (freshQueue 7) (2 * Int.tdiv ((freshQueue 7).length : Int) 3)
        ((2 + 1) * Int.tdiv ((freshQueue 7).length : Int) 3)).isSome = true) ∧
    segments (freshQueue 7) 0 = none ∧
    segments (freshQueue 7) (-2) = some [] ∧
    segments (freshQueue 2) 5 = some (List.replicate (5 : Int).toNat []) ∧
    sliceJobs (freshQueue 7) 4 6 =
      some [{ JobID := 5, SleepTime := 0, Done := false },
        { JobID := 6, SleepTime := 0, Done := false }] :=
  ⟨(segmentation_in_bounds (freshQueue 7) 3).1 (by decide) 2 (by decide) (by decide),
    (segmentation_in_bounds (freshQueue 7) 0).2.1.2 rfl, by decide,
    (segmentation_in_bounds (freshQueue 2) 5).2.2 (by decide), by decide⟩

/-- C3 as amended: with `threads >= 1`, `Distribute` builds `threads` segments, each of
size `N / threads`, segment `i` being `q[i*seg : (i+1)*seg]`; their concatenation is the
first `threads * (N / threads)` jobs of the queue, and the `N mod threads` jobs after
them are in no segment. When the ids are distinct and positive, the ids of those jobs
have no entry in the Log, whatever the interleaving. -/
theorem segments_partition (q : List Job) (threads : Nat) (h : 1 ≤ threads) :
    ∃ segs, segments q (threads : Int) = some segs ∧
      segs.length = threads ∧
      (∀ s ∈ segs, s.length = q.length / threads) ∧
      (∀ i : Nat, i < threads →
        segs[i]? = some ((q.drop (i * (q.length / threads))).take (q.length / threads))) ∧
      segs.flatten = q.take (threads * (q.length / threads)) ∧
      (q.drop (threads * (q.length / threads))).length = q.length % threads ∧
      ((∀ j ∈ q, 0 < j.JobID ∧ j.JobID < 2 ^ 63) → (q.map Job.JobID).Nodup →
        ∀ t, Interleaving (segs.map workerSignals) t →
          ∀ j ∈ q.drop (threads * (q.length / threads)),
            j ∉ segs.flatten ∧ j.JobID ∉ (receiveAll [] t).keys ∧
              (receiveAll [] t).get? j.JobID = none) := by
  have h1 : (1 : Int) ≤ (threads : Int) := by omega
  have hs := segments_of_pos q (threads : Int) h1
  have hf := segments_flatten_of_pos q (threads : Int) h1 _ hs
  simp only [Int.toNat_ofNat] at hs hf
  have hle : threads * (q.length / threads) ≤ q.length := Nat.mul_div_le q.length threads
  refine ⟨_, hs, by simp, ?_, ?_, hf, ?_, ?_⟩
  · intro s hs2
    obtain ⟨k, hk, rfl⟩ := List.mem_map.1 hs2
    have hk2 : k < threads := List.mem_range.1 hk
    have hb : (k + 1) * (q.length / threads) ≤ q.length :=
      (Nat.mul_le_mul_right _ hk2).trans hle
    rw [List.length_take, List.length_drop]
    rw [Nat.add_mul] at hb
    omega
  · intro i hi
    simp [List.getElem?_map, List.getElem?_range hi]
  · rw [List.length_drop]
    have := Nat.div_add_mod q.length threads
    omega
  · intro hpos hnd t ht j hj
    have hsplit : q = q.take (threads * (q.length / threads)) ++
        q.drop (threads * (q.length / threads)) := (List.take_append_drop _ _).symm
    have hnd2 := hnd
    rw [hsplit, List.map_append, List.nodup_append] at hnd2
    have hdis := hnd2.2.2
    have hne : ∀ x ∈ q.take (threads * (q.length / threads)), x.JobID ≠ j.JobID := by
      intro x hx he
      exact hdis (List.mem_map.2 ⟨x, hx, rfl⟩) (List.mem_map.2 ⟨j, hj, he.symm⟩)
    have hposf : ∀ x ∈ ((List.range threads).map
        (fun k => (q.drop (k * (q.length / threads))).take (q.length / threads))).flatten,
        0 < x.JobID ∧ x.JobID < 2 ^ 63 := by
      intro x hx
      rw [hf] at hx
      exact hpos x (List.mem_of_mem_take hx)
    have hnone := final_get?_none _ t hposf ht j.JobID (by
      intro x hx
      rw [hf] at hx
      exact hne x hx)
    refine ⟨?_, ?_, hnone⟩
    · rw [hf]
      intro hx
      exact hne j hx rfl
    · rw [Log.mem_keys_iff, hnone]
      simp

theorem segments_partition_witness :
    ∃ segs, segments (freshQueue 7) ((2 : Nat) : Int) = some segs ∧
      segs.length = 2 ∧
      (∀ s ∈ segs, s.length = (freshQueue 7).length / 2) ∧
      (∀ i : Nat, i < 2 →
        segs[i]? = some (((freshQueue 7).drop (i * ((freshQueue 7).length / 2))).take
          ((freshQueue 7).length / 2))) ∧
      segs.flatten = (freshQueue 7).take (2 * ((freshQueue 7).length / 2)) ∧
      ((freshQueue 7).drop (2 * ((freshQueue 7).length / 2))).length =
        (freshQueue 7).length % 2 ∧
      ((∀ j ∈ freshQueue 7, 0 < j.JobID ∧ j.JobID < 2 ^ 63) →
        ((freshQueue 7).map Job.JobID).Nodup →
        ∀ t, Interleaving (segs.map workerSignals) t →
          ∀ j ∈ (freshQueue 7).drop (2 * ((freshQueue 7).length / 2)),
            j ∉ segs.flatten ∧ j.JobID ∉ (receiveAll [] t).keys ∧
              (receiveAll [] t).get? j.JobID = none) :=
  segments_partition (freshQueue 7) 2 (by decide)

/-- C3 as stated fails: with ids `-5, -6, 5` and two workers the job with id `5` is in
no segment, the ids are distinct, and yet key `5` is in the Log, written by the signals
of the job with id `-5`. -/
theorem dropped_id_in_log :
    segments [{ JobID := -5, SleepTime := 0, Done := false },
        { JobID := -6, SleepTime := 0, Done := false },
        { JobID := 5, SleepTime := 0, Done := false }] 2 =
      some [[{ JobID := -5, SleepTime := 0, Done := false }],
        [{ JobID := -6, SleepTime := 0, Done := false }]] ∧
    (List.map Job.JobID [{ JobID := -5, SleepTime := 0, Done := false },
        { JobID := -6, SleepTime := 0, Done := false },
        { JobID := 5, SleepTime := 0, Done := false }]).Nodup ∧
    List.drop (2 * (3 / 2)) [({ JobID := -5, SleepTime := 0, Done := false } : Job),
        { JobID := -6, SleepTime := 0, Done := false },
        { JobID := 5, SleepTime := 0, Done := false }] =
      [{ JobID := 5, SleepTime := 0, Done := false }] ∧
    Interleaving
      (List.map workerSignals [[{ JobID := -5, SleepTime := 0, Done := false }],
        [{ JobID := -6, SleepTime := 0, Done := false }]])
      [Signal.status (-5), Signal.status 5, Signal.status (-6), Signal.status 6] ∧
    receiveAll [] [Signal.status (-5), Signal.status 5, Signal.status (-6), Signal.status 6] =
      [(5, running), (6, running)] ∧
    (5 : Int) ∈ (receiveAll []
      [Signal.status (-5), Signal.status 5, Signal.status (-6), Signal.status 6]).keys :=
  ⟨by decide, by decide, by decide,
    Interleaving.flatten
      (List.map workerSignals [[{ JobID := -5, SleepTime := 0, Done := false }],
        [{ JobID := -6, SleepTime := 0, Done := false }]]),
    by decide, by decide⟩

/-! ## Monitor.Distribute: the final Log -/

/-- C1: for a queue whose ids are exactly `1..N` and a worker count `threads >= 1` that
divides `N`, the segmentation succeeds and, for every interleaving of the workers'
signals, the final Log has exactly the keys `1..N`, every one of them complete or
failed, none running; in the report the running list is empty and every id is in
exactly one of the complete and failed lists. -/
theorem distribute_all_terminal (q : List Job) (threads : Nat)
    (hids : List.Perm (q.map Job.JobID) ((List.range q.length).map (fun i : Nat => (i : Int) + 1)))
    (hlen : (q.length : Int) < 2 ^ 63) (hthreads : 1 ≤ threads) (hdiv : threads ∣ q.length) :
    ∃ segs, segments q (threads : Int) = some segs ∧
      ∀ t, Interleaving (segs.map workerSignals) t →
        (∀ k, k ∈ (receiveAll [] t).keys ↔ 1 ≤ k ∧ k ≤ (q.length : Int)) ∧
        (∀ k, 1 ≤ k → k ≤ (q.length : Int) →
          (receiveAll [] t).get? k = some complete ∨ (receiveAll [] t).get? k = some failed) ∧
        (∀ k, (receiveAll [] t).get? k ≠ some running) ∧
        (report (receiveAll [] t)).running = [] ∧
        (∀ k, 1 ≤ k → k ≤ (q.length : Int) →
          (k ∈ (report (receiveAll [] t)).complete ∧ k ∉ (report (receiveAll [] t)).failed) ∨
          (k ∈ (report (receiveAll [] t)).failed ∧
            k ∉ (report (receiveAll [] t)).complete)) := by
  have h1 : (1 : Int) ≤ (threads : Int) := by omega
  have hs := segments_of_pos q (threads : Int) h1
  have hf := segments_flatten_of_pos q (threads : Int) h1 _ hs
  simp only [Int.toNat_ofNat] at hs hf
  rw [Nat.mul_div_cancel' hdiv, List.take_length] at hf
  have hmemid : ∀ k : Int, k ∈ q.map Job.JobID ↔ 1 ≤ k ∧ k ≤ (q.length : Int) := by
    intro k
    rw [hids.mem_iff]
    simp only [List.mem_map, List.mem_range]
    constructor
    · rintro ⟨i, hi, rfl⟩
      omega
    · rintro ⟨hk1, hk2⟩
      exact ⟨(k - 1).toNat, by omega, by omega⟩
  have hpos : ∀ j ∈ q, 0 < j.JobID ∧ j.JobID < 2 ^ 63 := by
    intro j hj
    have := (hmemid j.JobID).1 (List.mem_map.2 ⟨j, hj, rfl⟩)
    omega
  have hnd : (q.map Job.JobID).Nodup := by
    rw [hids.nodup_iff]
    refine (List.nodup_range q.length).map ?_
    intro a b hab
    simpa using hab
  refine ⟨_, hs, ?_⟩
  intro t ht
  generalize hsegs : (List.range threads).map
    (fun k => (q.drop (k * (q.length / threads))).take (q.length / threads)) = segs at hf ht
  have hposf : ∀ j ∈ segs.flatten, 0 < j.JobID ∧ j.JobID < 2 ^ 63 := by
    rw [hf]; exact hpos
  have hndf : (segs.flatten.map Job.JobID).Nodup := by
    rw [hf]; exact hnd
  have hm : (receiveAll [] t).keys.Nodup := nodup_keys_receiveAll t [] (by simp [Log.keys])
  have hin : ∀ k, 1 ≤ k → k ≤ (q.length : Int) →
      ∃ j ∈ segs.flatten, j.JobID = k ∧
        (receiveAll [] t).get? k = some (if j.Done then -1 else 1) := by
    intro k hk1 hk2
    obtain ⟨j, hj, hjk⟩ := List.mem_map.1 ((hmemid k).2 ⟨hk1, hk2⟩)
    rw [← hf] at hj
    refine ⟨j, hj, hjk, ?_⟩
    rw [← hjk]
    exact final_get?_mem segs t hposf hndf ht j hj
  have hout : ∀ k, ¬ (1 ≤ k ∧ k ≤ (q.length : Int)) → (receiveAll [] t).get? k = none := by
    intro k hk
    apply final_get?_none segs t hposf ht k
    intro j hj he
    rw [hf] at hj
    exact hk ((hmemid k).1 (List.mem_map.2 ⟨j, hj, he⟩))
  have hterm : ∀ k, 1 ≤ k → k ≤ (q.length : Int) →
      (receiveAll [] t).get? k = some complete ∨ (receiveAll [] t).get? k = some failed := by
    intro k hk1 hk2
    obtain ⟨j, _, _, hg⟩ := hin k hk1 hk2
    cases hd : j.Done
    · left; rw [hg, hd]; rfl
    · right; rw [hg, hd]; rfl
  have hnorun : ∀ k, (receiveAll [] t).get? k ≠ some running := by
    intro k
    by_cases hk : 1 ≤ k ∧ k ≤ (q.length : Int)
    · rcases hterm k hk.1 hk.2 with h | h <;> rw [h] <;> decide
    · rw [hout k hk]
      simp
  refine ⟨?_, hterm, hnorun, ?_, ?_⟩
  · intro k
    rw [Log.mem_keys_iff]
    constructor
    · intro hne
      by_contra hk
      exact hne (hout k hk)
    · rintro ⟨hk1, hk2⟩
      rcases hterm k hk1 hk2 with h | h <;> rw [h] <;> simp
  · rw [List.eq_nil_iff_forall_not_mem]
    intro k hk
    rw [mem_report_running _ hm] at hk
    exact hnorun k hk
  · intro k hk1 hk2
    rw [mem_report_complete _ hm, mem_report_failed _ hm]
    rcases hterm k hk1 hk2 with h | h
    · left
      refine ⟨h, ?_⟩
      rw [h]; decide
    · right
      refine ⟨h, ?_⟩
      rw [h]; decide

theorem distribute_all_terminal_witness :
    List.Perm ((freshQueue 4).map Job.JobID)
      ((List.range (freshQueue 4).length).map (fun i : Nat => (i : Int) + 1)) ∧
    Interleaving
      (List.map workerSignals [(freshQueue 4).take 2, (freshQueue 4).drop 2])
      [Signal.status 1, Signal.status (-1), Signal.status 2, Signal.status (-2),
        Signal.status 3, Signal.status (-3), Signal.status 4, Signal.status (-4)] ∧
    receiveAll [] [Signal.status 1, Signal.status (-1), Signal.status 2, Signal.status (-2),
        Signal.status 3, Signal.status (-3), Signal.status 4, Signal.status (-4)] =
      [(1, complete), (2, complete), (3, complete), (4, complete)] ∧
    ∃ segs, segments (freshQueue 4) ((2 : Nat) : Int) = some segs ∧
      ∀ t, Interleaving (segs.map workerSignals) t →
        (∀ k, k ∈ (receiveAll [] t).keys ↔ 1 ≤ k ∧ k ≤ ((freshQueue 4).length : Int)) ∧
        (∀ k, 1 ≤ k → k ≤ ((freshQueue 4).length : Int) →
          (receiveAll [] t).get? k = some complete ∨ (receiveAll [] t).get? k = some failed) ∧
        (∀ k, (receiveAll [] t).get? k ≠ some running) ∧
        (report (receiveAll [] t)).running = [] ∧
        (∀ k, 1 ≤ k → k ≤ ((freshQueue 4).length : Int) →
          (k ∈ (report (receiveAll [] t)).complete ∧ k ∉ (report (receiveAll [] t)).failed) ∨
          (k ∈ (report (receiveAll [] t)).failed ∧
            k ∉ (report (receiveAll [] t)).complete)) :=
  ⟨by decide,
    Interleaving.flatten (List.map workerSignals [(freshQueue 4).take 2, (freshQueue 4).drop 2]),
    by decide,
    distribute_all_terminal (freshQueue 4) 2 (by decide) (by decide) (by decide) (by decide)⟩

/-- The report of the end-to-end run of eight fresh jobs on two workers. -/
theorem report_fresh_eight (segs : List (List Job)) (t : List Signal)
    (hs : segments (freshQueue 8) 2 = some segs)
    (ht : Interleaving (segs.map workerSignals) t) :
    report (receiveAll [] t) =
      { running := [], complete := [1, 2, 3, 4, 5, 6, 7, 8], failed := [] } := by
  have h8 : segments (freshQueue 8) 2 = some [(freshQueue 8).take 4, (freshQueue 8).drop 4] := by
    decide
  rw [h8] at hs
  injection hs with hs
  subst hs
  rw [report_final _ t (by decide) (by decide) ht]
  decide

/-- The report of the run of one job that was executed before it is handed over. -/
theorem report_executed_one (j : Job) (segs : List (List Job)) (t : List Signal)
    (h0 : 0 < j.JobID) (h1 : j.JobID < 2 ^ 63)
    (hs : segments [(Execute j).1] 1 = some segs)
    (ht : Interleaving (segs.map workerSignals) t) :
    report (receiveAll [] t) = { running := [], complete := [], failed := [j.JobID] } ∧
    ∀ p, p <+: t → (receiveAll [] p).get? j.JobID ≠ some complete := by
  have hd : (Execute j).1.Done = true := by
    unfold Execute
    cases h : j.Done <;> simp [h]
  have hid : (Execute j).1.JobID = j.JobID := Execute_fst_JobID j
  have h8 : segments [(Execute j).1] 1 = some [[(Execute j).1]] := by
    simp [segments, segmentsLoop, sliceJobs, Int.tdiv]
  rw [h8] at hs
  injection hs with hs
  subst hs
  have hpos : ∀ x ∈ [[(Execute j).1]].flatten, 0 < x.JobID ∧ x.JobID < 2 ^ 63 := by
    intro x hx
    simp at hx
    subst hx
    rw [hid]
    exact ⟨h0, h1⟩
  have hnd : ([[(Execute j).1]].flatten.map Job.JobID).Nodup := by simp
  constructor
  · rw [report_final _ t hpos hnd ht]
    simp [hd, hid, sortInts]
  · intro p hp
    have := prefix_never_complete _ t hpos hnd ht (Execute j).1 (by simp) hd p hp
    rwa [hid] at this

/-- C2: for a queue with distinct positive ids and every dispatched job, in every
interleaving, the final state is complete when the job was handed over with `Done`
unset, and failed when it was handed over with `Done` set, in which case the job is
complete after no prefix of the run. Eight fresh jobs on two workers report
`complete = [1..8]` and nothing running or failed; one job executed beforehand reports
`failed = [id]` and nothing complete. -/
theorem final_state_by_done (q : List Job) (threads : Int) (segs : List (List Job))
    (t : List Signal)
    (hpos : ∀ j ∈ q, 0 < j.JobID ∧ j.JobID < 2 ^ 63) (hnd : (q.map Job.JobID).Nodup)
    (hs : segments q threads = some segs) (ht : Interleaving (segs.map workerSignals) t) :
    (∀ j ∈ segs.flatten,
      (j.Done = false → (receiveAll [] t).get? j.JobID = some complete) ∧
      (j.Done = true → (receiveAll [] t).get? j.JobID = some failed ∧
        ∀ p, p <+: t → (receiveAll [] p).get? j.JobID ≠ some complete)) ∧
    (∀ segs8 t8, segments (freshQueue 8) 2 = some segs8 →
      Interleaving (segs8.map workerSignals) t8 →
      report (receiveAll [] t8) =
        { running := [], complete := [1, 2, 3, 4, 5, 6, 7, 8], failed := [] }) ∧
    (∀ (j0 : Job) segs1 t1, 0 < j0.JobID → j0.JobID < 2 ^ 63 →
      segments [(Execute j0).1] 1 = some segs1 →
      Interleaving (segs1.map workerSignals) t1 →
      report (receiveAll [] t1) = { running := [], complete := [], failed := [j0.JobID] } ∧
      ∀ p, p <+: t1 → (receiveAll [] p).get? j0.JobID ≠ some complete) := by
  have hsub := segments_flatten_sublist q threads segs hs
  have hposf : ∀ j ∈ segs.flatten, 0 < j.JobID ∧ j.JobID < 2 ^ 63 :=
    fun j hj => hpos j (hsub.subset hj)
  have hndf : (segs.flatten.map Job.JobID).Nodup := hnd.sublist (hsub.map _)
  refine ⟨?_, fun segs8 t8 h8 ht8 => report_fresh_eight segs8 t8 h8 ht8,
    fun j0 segs1 t1 h0 h1 hs1 ht1 => report_executed_one j0 segs1 t1 h0 h1 hs1 ht1⟩
  intro j hj
  have hfin := final_get?_mem segs t hposf hndf ht j hj
  constructor
  · intro hd
    rw [hfin, hd]
    rfl
  · intro hd
    refine ⟨by rw [hfin, hd]; rfl, ?_⟩
    intro p hp
    exact prefix_never_complete segs t hposf hndf ht j hj hd p hp

/-- A run of one executed and one fresh job on two workers in which the signals of the
two workers alternate. -/
theorem interleaving_two_workers :
    Interleaving
      (List.map workerSignals [[{ JobID := 1, SleepTime := 0, Done := true }],
        [{ JobID := 2, SleepTime := 0, Done := false }]])
      [Signal.status 1, Signal.status 2, Signal.status (-2), Signal.err 1] := by
  refine Interleaving.step _ [] [[Signal.status 2, Signal.status (-2)]] (Signal.status 1)
    [Signal.err 1] _ (by decide) ?_
  refine Interleaving.step _ [[Signal.err 1]] [] (Signal.status 2) [Signal.status (-2)] _ rfl ?_
  refine Interleaving.step _ [[Signal.err 1]] [] (Signal.status (-2)) [] _ rfl ?_
  refine Interleaving.step _ [] [[]] (Signal.err 1) [] _ rfl ?_
  exact Interleaving.done _ (by decide)

theorem final_state_by_done_witness :
    report (receiveAll [] [Signal.status 1, Signal.status 2, Signal.status (-2), Signal.err 1]) =
      { running := [], complete := [2], failed := [1] } ∧
    ((∀ j ∈ List.flatten [[({ JobID := 1, SleepTime := 0, Done := true } : Job)],
        [{ JobID := 2, SleepTime := 0, Done := false }]],
      (j.Done = false →
        (receiveAll [] [Signal.status 1, Signal.status 2, Signal.status (-2),
          Signal.err 1]).get? j.JobID = some complete) ∧
      (j.Done = true →
        (receiveAll [] [Signal.status 1, Signal.status 2, Signal.status (-2),
          Signal.err 1]).get? j.JobID = some failed ∧
        ∀ p, p <+: [Signal.status 1, Signal.status 2, Signal.status (-2), Signal.err 1] →
          (receiveAll [] p).get? j.JobID ≠ some complete)) ∧
    (∀ segs8 t8, segments (freshQueue 8) 2 = some segs8 →
      Interleaving (segs8.map workerSignals) t8 →
      report (receiveAll [] t8) =
        { running := [], complete := [1, 2, 3, 4, 5, 6, 7, 8], failed := [] }) ∧
    (∀ (j0 : Job) segs1 t1, 0 < j0.JobID → j0.JobID < 2 ^ 63 →
      segments [(Execute j0).1] 1 = some segs1 →
      Interleaving (segs1.map workerSignals) t1 →
      report (receiveAll [] t1) = { running := [], complete := [], failed := [j0.JobID] } ∧
      ∀ p, p <+: t1 → (receiveAll [] p).get? j0.JobID ≠ some complete)) :=
  ⟨by decide,
    final_state_by_done
      [{ JobID := 1, SleepTime := 0, Done := true },
        { JobID := 2, SleepTime := 0, Done := false }] 2
      [[{ JobID := 1, SleepTime := 0, Done := true }],
        [{ JobID := 2, SleepTime := 0, Done := false }]]
      [Signal.status 1, Signal.status 2, Signal.status (-2), Signal.err 1]
      (by decide) (by decide) (by decide) interleaving_two_workers⟩

/-! ## Monitor.close -/

theorem step_blocked {s s1 : Sys} {e : Event} (hb : Blocked s) (h : step s e = some s1) :
    Blocked s1 := by
  obtain ⟨h1, h2, h3, h4⟩ := hb
  cases e with
  | send i toMain =>
    simp only [step] at h
    split at h
    · rw [Option.ite_none_right_eq_some] at h
      obtain ⟨_, h⟩ := h
      injection h with h
      subst h
      exact ⟨h1, h2, h3, h4⟩
    · cases h
  | closed byMain =>
    simp [step, h1, h2] at h
  | advance =>
    simp only [step] at h
    rcases h4 with h4 | h4
    · rw [h4] at h
      simp only at h
      split at h
      · injection h with h
        subst h
        exact ⟨h1, h2, h3, Or.inr rfl⟩
      · cases h
    · rw [h4] at h
      cases h

theorem run_blocked (es : List Event) (s s1 : Sys) (hb : Blocked s)
    (h : run s es = some s1) : Blocked s1 := by
  induction es generalizing s with
  | nil =>
    simp only [run] at h
    injection h with h
    subst h
    exact hb
  | cons e rest ih =>
    simp only [run] at h
    split at h
    · cases h
    · rename_i s2 hs2
      exact ih s2 (step_blocked hb hs2) h

/-- In the receive loop of `close`, with both channels open and nothing left to send,
nothing can happen. -/
theorem step_none_of_drained (s : Sys) (h1 : s.statusOpen = true) (h2 : s.errOpen = true)
    (hm : s.main = MainPc.draining) (hw : ∀ w ∈ s.workers, w = []) (e : Event) :
    step s e = none := by
  cases e with
  | send i toMain =>
    simp only [step]
    split
    · rename_i sig rest hget
      have := hw _ (List.getElem?_mem hget)
      cases this
    · rfl
  | closed byMain => simp [step, h1, h2]
  | advance => simp [step, hm]

/-- Once the main goroutine has left `wg.Wait()`, no worker has anything left to send. -/
theorem step_drained {s s1 : Sys} {e : Event}
    (hd : s.main ≠ MainPc.waiting → ∀ w ∈ s.workers, w = []) (h : step s e = some s1) :
    s1.main ≠ MainPc.waiting → ∀ w ∈ s1.workers, w = [] := by
  cases e with
  | send i toMain =>
    simp only [step] at h
    split at h
    · rename_i sig rest hget
      rw [Option.ite_none_right_eq_some] at h
      obtain ⟨_, h⟩ := h
      injection h with h
      subst h
      intro hm
      have := hd hm _ (List.getElem?_mem hget)
      cases this
    · cases h
  | closed byMain =>
    simp only [step] at h
    split_ifs at h <;> injection h with h <;> subst h
    · intro _
      exact hd (by simp_all)
    · exact hd
  | advance =>
    simp only [step] at h
    split at h
    · rw [Option.ite_none_right_eq_some] at h
      obtain ⟨hall, h⟩ := h
      injection h with h
      subst h
      intro _ w hw
      have := List.all_eq_true.1 hall w hw
      simpa using this
    · cases h
    · rename_i hm
      rw [Option.ite_none_right_eq_some] at h
      obtain ⟨_, h⟩ := h
      injection h with h
      subst h
      intro _
      exact hd (by rw [hm]; decide)
    · rename_i hm
      rw [Option.ite_none_right_eq_some] at h
      obtain ⟨_, h⟩ := h
      injection h with h
      subst h
      intro _
      exact hd (by rw [hm]; decide)
    · cases h

theorem run_drained (es : List Event) (s s1 : Sys)
    (hd : s.main ≠ MainPc.waiting → ∀ w ∈ s.workers, w = []) (h : run s es = some s1) :
    s1.main ≠ MainPc.waiting → ∀ w ∈ s1.workers, w = [] := by
  induction es generalizing s with
  | nil =>
    simp only [run] at h
    injection h with h
    subst h
    exact hd
  | cons e rest ih =>
    simp only [run] at h
    split at h
    · cases h
    · rename_i s2 hs2
      exact ih s2 (step_drained hd hs2) h

/-- The Log of a run is the Log at its start updated with the signals received, and
these continue to an interleaving of what the workers had to send at the start. -/
theorem run_log_interleaving (es : List Event) (s s1 : Sys) (h : run s es = some s1) :
    ∃ t, s1.log = receiveAll s.log t ∧
      ∀ u, Interleaving s1.workers u → Interleaving s.workers (t ++ u) := by
  induction es generalizing s with
  | nil =>
    simp only [run] at h
    injection h with h
    subst h
    exact ⟨[], rfl, fun u hu => hu⟩
  | cons e rest ih =>
    simp only [run] at h
    split at h
    · cases h
    · rename_i s2 hs2
      obtain ⟨t2, hlog, hint⟩ := ih s2 h
      cases e with
      | send i toMain =>
        simp only [step] at hs2
        split at hs2
        · rename_i sig rest2 hget
          rw [Option.ite_none_right_eq_some] at hs2
          obtain ⟨_, hs2⟩ := hs2
          injection hs2 with hs2
          subst hs2
          obtain ⟨hi, hgi⟩ := List.getElem?_eq_some_iff.1 hget
          refine ⟨sig :: t2, by rw [receiveAll_cons]; exact hlog, ?_⟩
          intro u hu
          have h3 := hint u hu
          simp only at h3
          rw [List.set_eq_take_append_cons_drop, if_pos hi] at h3
          refine Interleaving.step _ (s.workers.take i) (s.workers.drop (i + 1)) sig rest2
            (t2 ++ u) ?_ h3
          rw [← hgi, ← List.drop_eq_getElem_cons hi, List.take_append_drop]
        · cases hs2
      | closed byMain =>
        simp only [step] at hs2
        split_ifs at hs2 <;> injection hs2 with hs2 <;> subst hs2 <;>
          exact ⟨t2, hlog, hint⟩
      | advance =>
        simp only [step] at hs2
        split at hs2
        · rw [Option.ite_none_right_eq_some] at hs2
          obtain ⟨_, hs2⟩ := hs2
          injection hs2 with hs2
          subst hs2
          exact ⟨t2, hlog, hint⟩
        · cases hs2
        · rw [Option.ite_none_right_eq_some] at hs2
          obtain ⟨_, hs2⟩ := hs2
          injection hs2 with hs2
          subst hs2
          exact ⟨t2, hlog, hint⟩
        · rw [Option.ite_none_right_eq_some] at hs2
          obtain ⟨_, hs2⟩ := hs2
          injection hs2 with hs2
          subst hs2
          exact ⟨t2, hlog, hint⟩
        · cases hs2

/-- When the main goroutine has left `wg.Wait()`, the Log is the one the receive loop
builds from an interleaving of the signals of the workers. -/
theorem run_drained_log (q : List Job) (threads : Int) (s0 s : Sys) (es : List Event)
    (h0 : Distribute q threads = some s0) (h : run s0 es = some s)
    (hm : s.main ≠ MainPc.waiting) :
    ∃ segs t, segments q threads = some segs ∧ Interleaving (segs.map workerSignals) t ∧
      s.log = receiveAll [] t := by
  unfold Distribute at h0
  split at h0
  · cases h0
  · rename_i segs hsegs
    injection h0 with h0
    subst h0
    obtain ⟨t, hlog, hint⟩ := run_log_interleaving es _ s h
    have hw := run_drained es (initSys segs) s (fun hx => absurd rfl hx) h hm
    refine ⟨segs, t, hsegs, ?_, hlog⟩
    have := hint [] (Interleaving.done _ hw)
    simpa [initSys] using this

/-- C8 fails on the code: in every run of `Distribute`, whatever the queue and the
number of workers, both channels stay open, the receive loop started by `listen` never
ends, and the main goroutine never gets past the receive loop that `close` calls
first, so it closes no channel and does not return; once it is in that loop, the
workers being done, no further step is possible. -/
theorem close_never_returns (q : List Job) (threads : Int) (s0 s : Sys) (es : List Event)
    (h0 : Distribute q threads = some s0) (h : run s0 es = some s) :
    s.statusOpen = true ∧ s.errOpen = true ∧ s.listening = true ∧
    s.main ≠ MainPc.closingStatus ∧ s.main ≠ MainPc.closingErr ∧ s.main ≠ MainPc.returned ∧
    (s.main = MainPc.draining → ∀ e, step s e = none) := by
  have hinit : Blocked s0 ∧ (s0.main ≠ MainPc.waiting → ∀ w ∈ s0.workers, w = []) := by
    unfold Distribute at h0
    split at h0
    · cases h0
    · injection h0 with h0
      subst h0
      exact ⟨⟨rfl, rfl, rfl, Or.inl rfl⟩, fun hx => absurd rfl hx⟩
  have hb : Blocked s := run_blocked es s0 s hinit.1 h
  have hd := run_drained es s0 s hinit.2 h
  obtain ⟨h1, h2, h3, h4⟩ := hb
  refine ⟨h1, h2, h3, ?_, ?_, ?_, ?_⟩
  · rcases h4 with h4 | h4 <;> rw [h4] <;> decide
  · rcases h4 with h4 | h4 <;> rw [h4] <;> decide
  · rcases h4 with h4 | h4 <;> rw [h4] <;> decide
  · intro hm e
    exact step_none_of_drained s h1 h2 hm (hd (by rw [hm]; decide)) e

theorem close_never_returns_witness :
    Distribute (freshQueue 2) 1 = some (initSys [freshQueue 2]) ∧
    run (initSys [freshQueue 2])
        [Event.send 0 false, Event.send 0 false, Event.send 0 false, Event.send 0 false,
          Event.advance] = some drainedTwo ∧
    (drainedTwo.statusOpen = true ∧ drainedTwo.errOpen = true ∧ drainedTwo.listening = true ∧
      drainedTwo.main ≠ MainPc.closingStatus ∧ drainedTwo.main ≠ MainPc.closingErr ∧
      drainedTwo.main ≠ MainPc.returned ∧
      (drainedTwo.main = MainPc.draining → ∀ e, step drainedTwo e = none)) :=
  ⟨by decide, by decide,
    close_never_returns (freshQueue 2) 1 (initSys [freshQueue 2]) drainedTwo
      [Event.send 0 false, Event.send 0 false, Event.send 0 false, Event.send 0 false,
        Event.advance] (by decide) (by decide)⟩

end GoDemo
